import Mathlib

/-!
Verification of the Telegram login-widget payload validator (`src/lib.rs`).

The source program parses a JSON text, canonicalizes the resulting object
(keeping only fields whose value is an i64-representable number or a string,
collecting them into a `BTreeMap`, removing the `hash` entry, and joining the
rest as `key=value` lines), derives a signing key as SHA-256 of the bot token,
and compares HMAC-SHA256 of the canonical string — rendered as lowercase hex —
against the extracted `hash` value.

JSON parsing itself is an external collaborator (`serde_json`); the embedding
therefore takes the parse result as an `Option Value` (`none` = parse failure)
and models the parsed tree as `Value`, with object fields as the list of
(key, value) pairs in source order (duplicate keys permitted, as in the raw
text; the `BTreeMap` collection gives last-writer-wins, matching the composed
pipeline).  Rust's `BTreeMap<String, _>` orders keys by their UTF-8 bytes,
which coincides with the code-point lexicographic order used by Lean's
`String` linear order, since UTF-8 encoding is order-preserving.
-/

namespace TgAuth

/-- The two error kinds of the validator (`ValidationError` in the source). -/
inductive ValidationError where
  | InvalidInput
  | InvalidHash
deriving DecidableEq, Repr

/-- A `serde_json` number: a non-negative integer (stored as u64), a negative
integer (stored as i64), or a float.  `Float` carries no payload here because
the only operation the program applies to it, `as_i64`, returns `None`. -/
inductive JsonNum where
  | posInt (n : Nat)
  | negInt (n : Nat)
  | float
deriving DecidableEq, Repr

/-- `serde_json::Number::as_i64`: a non-negative integer converts when it fits
in i64, a negative integer always converts, a float never does. -/
def asI64 : JsonNum → Option Int
  | .posInt n => if n ≤ 9223372036854775807 then some (Int.ofNat n) else none
  | .negInt n => some (-(Int.ofNat n))
  | .float => none

/-- A parsed JSON value tree (`serde_json::Value`).  Object fields are kept in
source order, duplicates allowed. -/
inductive Value where
  | number (n : JsonNum)
  | str (s : String)
  | bool (b : Bool)
  | null
  | arr (elems : List Value)
  | obj (fields : List (String × Value))

/-- Decimal digits of `n`, most significant first (`[0]` for zero). -/
def natDigits (n : Nat) : List Nat :=
  if _h : n < 10 then [n] else natDigits (n / 10) ++ [n % 10]
decreasing_by
  exact Nat.div_lt_self (by omega) (by omega)

/-- A single decimal digit as a character. -/
def digitChar (d : Nat) : Char :=
  if d = 0 then '0' else if d = 1 then '1' else if d = 2 then '2'
  else if d = 3 then '3' else if d = 4 then '4' else if d = 5 then '5'
  else if d = 6 then '6' else if d = 7 then '7' else if d = 8 then '8'
  else '9'

/-- Plain base-10 rendering of a natural number. -/
def natDecimal (n : Nat) : String :=
  String.mk ((natDigits n).map digitChar)

/-- Rust's `i64::to_string`: plain decimal, `-` prefix for negatives. -/
def intRender (i : Int) : String :=
  if i < 0 then "-" ++ natDecimal i.natAbs else natDecimal i.natAbs

/-- The body of the `filter_map` in `extract_data_check_string`: the textual
form of a scalar field value — decimal text for an i64-representable number,
the string itself for a string, `none` for every other kind. -/
def scalarText : Value → Option String
  | .number n => (asI64 n).map intRender
  | .str s => some s
  | _ => none

/-- The surviving (key, text) pairs of an object's field list, in source
order (the `filter_map` stage of the source). -/
def collectScalars (fields : List (String × Value)) : List (String × String) :=
  fields.filterMap (fun p => (scalarText p.2).map (fun t => (p.1, t)))

/-- One `BTreeMap::insert` on a key-sorted association list: keeps keys in
strictly ascending order, a repeated key overwrites the stored value. -/
def btreeInsert : List (String × String) → String × String → List (String × String)
  | [], kv => [kv]
  | (k', v') :: rest, (k, v) =>
    if k < k' then (k, v) :: (k', v') :: rest
    else if k = k' then (k, v) :: rest
    else (k', v') :: btreeInsert rest (k, v)

/-- `collect::<BTreeMap<String, String>>()` over the surviving pairs: fold the
source-order pairs into a sorted unique association list (later occurrence of
a duplicate key wins, as in `BTreeMap` insertion). -/
def buildMap (fields : List (String × Value)) : List (String × String) :=
  (collectScalars fields).foldl btreeInsert []

/-- `extract_data_check_string` from the source: require a top-level object,
build the sorted map of scalar fields, require a `hash` entry, and return it
together with the newline-joined `key=value` lines of the other entries. -/
def extract_data_check_string (v : Value) : Except ValidationError (String × String) :=
  match v with
  | .obj fields =>
    let kv := buildMap fields
    match kv.lookup "hash" with
    | none => .error .InvalidInput
    | some hash =>
      .ok (hash, String.intercalate "\n"
        ((kv.filter (fun p => p.1 != "hash")).map (fun p => p.1 ++ "=" ++ p.2)))
  | _ => .error .InvalidInput

/-! ### Byte-level primitives: UTF-8, SHA-256, HMAC, hex -/

/-- UTF-8 encoding of one character, as byte values. -/
def charUtf8 (c : Char) : List Nat :=
  let n := c.toNat
  if n < 128 then [n]
  else if n < 2048 then [192 + n / 64, 128 + n % 64]
  else if n < 65536 then [224 + n / 4096, 128 + (n / 64) % 64, 128 + n % 64]
  else [240 + n / 262144, 128 + (n / 4096) % 64, 128 + (n / 64) % 64, 128 + n % 64]

/-- UTF-8 bytes of a string (`str::as_bytes`). -/
def utf8Bytes (s : String) : List Nat :=
  s.data.flatMap charUtf8

/-- 32-bit right rotation (operands below `2 ^ 32`). -/
def rotr (n x : Nat) : Nat :=
  (x / 2 ^ n + x * 2 ^ (32 - n)) % 2 ^ 32

/-- Bitwise complement within 32 bits. -/
def compl32 (x : Nat) : Nat := 4294967295 ^^^ x

def ch (x y z : Nat) : Nat := (x &&& y) ^^^ (compl32 x &&& z)

def maj (x y z : Nat) : Nat := (x &&& y) ^^^ (x &&& z) ^^^ (y &&& z)

def bigSigma0 (x : Nat) : Nat := rotr 2 x ^^^ rotr 13 x ^^^ rotr 22 x

def bigSigma1 (x : Nat) : Nat := rotr 6 x ^^^ rotr 11 x ^^^ rotr 25 x

def smallSigma0 (x : Nat) : Nat := rotr 7 x ^^^ rotr 18 x ^^^ x / 2 ^ 3

def smallSigma1 (x : Nat) : Nat := rotr 17 x ^^^ rotr 19 x ^^^ x / 2 ^ 10

/-- The 64 SHA-256 round constants (FIPS 180-4, `0x428a2f98 … 0xc67178f2`),
written in decimal. -/
def K64 : List Nat :=
  [1116352408, 1899447441, 3049323471, 3921009573,
   961987163, 1508970993, 2453635748, 2870763221,
   3624381080, 310598401, 607225278, 1426881987,
   1925078388, 2162078206, 2614888103, 3248222580,
   3835390401, 4022224774, 264347078, 604807628,
   770255983, 1249150122, 1555081692, 1996064986,
   2554220882, 2821834349, 2952996808, 3210313671,
   3336571891, 3584528711, 113926993, 338241895,
   666307205, 773529912, 1294757372, 1396182291,
   1695183700, 1986661051, 2177026350, 2456956037,
   2730485921, 2820302411, 3259730800, 3345764771,
   3516065817, 3600352804, 4094571909, 275423344,
   430227734, 506948616, 659060556, 883997877,
   958139571, 1322822218, 1537002063, 1747873779,
   1955562222, 2024104815, 2227730452, 2361852424,
   2428436474, 2756734187, 3204031479, 3329325298]

/-- The eight 32-bit working variables of SHA-256. -/
structure Sha256State where
  a : Nat
  b : Nat
  c : Nat
  d : Nat
  e : Nat
  f : Nat
  g : Nat
  h : Nat

/-- The SHA-256 initial hash value (FIPS 180-4, `0x6a09e667 … 0x5be0cd19`),
written in decimal. -/
def initState : Sha256State :=
  ⟨1779033703, 3144134277, 1013904242, 2773480762,
   1359893119, 2600822924, 528734635, 1541459225⟩

/-- Extend the 16 message-schedule words of a block to 64. -/
def expandSchedule (block : List Nat) : List Nat :=
  (List.range 48).foldl
    (fun w _ =>
      let n := w.length
      w ++ [(smallSigma1 (w.getD (n - 2) 0) + w.getD (n - 7) 0 +
             smallSigma0 (w.getD (n - 15) 0) + w.getD (n - 16) 0) % 2 ^ 32])
    block

/-- One SHA-256 round: `p.1` is the schedule word, `p.2` the round constant. -/
def round (st : Sha256State) (p : Nat × Nat) : Sha256State :=
  let t1 := (st.h + bigSigma1 st.e + ch st.e st.f st.g + p.2 + p.1) % 2 ^ 32
  let t2 := (bigSigma0 st.a + maj st.a st.b st.c) % 2 ^ 32
  ⟨(t1 + t2) % 2 ^ 32, st.a, st.b, st.c, (st.d + t1) % 2 ^ 32, st.e, st.f, st.g⟩

/-- Compress one 16-word block into the running state. -/
def compress (st : Sha256State) (block : List Nat) : Sha256State :=
  let w := expandSchedule block
  let t := ((w.zip K64).foldl round st)
  ⟨(st.a + t.a) % 2 ^ 32, (st.b + t.b) % 2 ^ 32, (st.c + t.c) % 2 ^ 32,
   (st.d + t.d) % 2 ^ 32, (st.e + t.e) % 2 ^ 32, (st.f + t.f) % 2 ^ 32,
   (st.g + t.g) % 2 ^ 32, (st.h + t.h) % 2 ^ 32⟩

/-- Split a list into chunks of `n` (the last one possibly shorter). -/
def chunk (n : Nat) : List α → List (List α)
  | [] => []
  | x :: xs =>
    match n with
    | 0 => []
    | m + 1 => (x :: xs).take (m + 1) :: chunk (m + 1) ((x :: xs).drop (m + 1))
termination_by l => l.length
decreasing_by
  simp [List.length_drop]
  omega

/-- A 32-bit word from four big-endian bytes. -/
def wordOfBytes (bs : List Nat) : Nat :=
  bs.foldl (fun acc b => acc * 256 + b) 0

/-- Big-endian bytes of a 32-bit word. -/
def word32Bytes (x : Nat) : List Nat :=
  [x / 2 ^ 24 % 256, x / 2 ^ 16 % 256, x / 2 ^ 8 % 256, x % 256]

/-- The message length in bits as eight big-endian bytes. -/
def lenBytes (n : Nat) : List Nat :=
  [n / 2 ^ 56 % 256, n / 2 ^ 48 % 256, n / 2 ^ 40 % 256, n / 2 ^ 32 % 256,
   n / 2 ^ 24 % 256, n / 2 ^ 16 % 256, n / 2 ^ 8 % 256, n % 256]

/-- SHA-256 padding: `0x80`, zero bytes to 56 mod 64, then the bit length. -/
def padMessage (msg : List Nat) : List Nat :=
  msg ++ [128] ++ List.replicate ((119 - msg.length % 64) % 64) 0 ++
    lenBytes (msg.length * 8)

/-- The digest bytes of a final state. -/
def stateBytes (s : Sha256State) : List Nat :=
  word32Bytes s.a ++ word32Bytes s.b ++ word32Bytes s.c ++ word32Bytes s.d ++
  word32Bytes s.e ++ word32Bytes s.f ++ word32Bytes s.g ++ word32Bytes s.h

/-- SHA-256 of a byte list, as the 32 digest bytes. -/
def sha256 (msg : List Nat) : List Nat :=
  stateBytes (((chunk 64 (padMessage msg)).map
    (fun b => (chunk 4 b).map wordOfBytes)).foldl compress initState)

/-- The HMAC block-sized key: a key longer than the 64-byte block is hashed
first, then the key is zero-padded to 64 bytes (RFC 2104). -/
def hmacKeyBlock (key : List Nat) : List Nat :=
  let k := if 64 < key.length then sha256 key else key
  k ++ List.replicate (64 - k.length) 0

/-- HMAC-SHA256 of `msg` under `key`. -/
def hmacSha256 (key msg : List Nat) : List Nat :=
  let k0 := hmacKeyBlock key
  sha256 ((k0.map (fun b => b ^^^ 0x5c)) ++
    sha256 ((k0.map (fun b => b ^^^ 0x36)) ++ msg))

/-- `Hmac::<Sha256>::new_from_slice`: the `hmac` crate accepts keys of any
length, so the `Result` it returns (kept here as an `Option` to mirror the
`map_err` branch of the source) is always the successfully initialized key. -/
def hmacNewFromSlice (key : List Nat) : Option (List Nat) :=
  some key

/-- A hex digit, lowercase. -/
def hexDigit : Nat → Char
  | 0 => '0' | 1 => '1' | 2 => '2' | 3 => '3' | 4 => '4' | 5 => '5'
  | 6 => '6' | 7 => '7' | 8 => '8' | 9 => '9' | 10 => 'a' | 11 => 'b'
  | 12 => 'c' | 13 => 'd' | 14 => 'e' | _ => 'f'

/-- `hex::encode`: lowercase hexadecimal rendering of a byte list. -/
def hexEncode (bs : List Nat) : String :=
  String.mk (bs.flatMap (fun b => [hexDigit (b / 16), hexDigit (b % 16)]))

/-- `validate` from the source, over the parse result (`none` models a
`serde_json::from_str` error, mapped to `InvalidInput`). -/
def validate (parsed : Option Value) (bot_token : String) : Except ValidationError Unit :=
  match parsed with
  | none => .error .InvalidInput
  | some v =>
    match extract_data_check_string v with
    | .error e => .error e
    | .ok (check_hash, data_check_string) =>
      let bot_token_hash := sha256 (utf8Bytes bot_token)
      match hmacNewFromSlice bot_token_hash with
      | none => .error .InvalidInput
      | some key =>
        let result := hexEncode (hmacSha256 key (utf8Bytes data_check_string))
        if result = check_hash then .ok () else .error .InvalidHash

/-! ### Specification-side auxiliary definitions -/

/-- Last-writer-wins lookup over a source-order pair list: the text value of
the last pair with key `k`, if any. -/
def lastLookup (pairs : List (String × String)) (k : String) : Option String :=
  (pairs.reverse.find? (fun p => p.1 == k)).map Prod.snd

/-- Keys in strictly ascending order (the `BTreeMap` invariant).  Rust orders
`String` keys by UTF-8 bytes, which agrees with Lean's code-point order. -/
def KeysSorted (l : List (String × String)) : Prop :=
  l.Pairwise (fun p q => p.1 < q.1)

/-- Plain base-10 decimal text: optional leading `-`, digits only (so no
exponent notation), and no leading zero. -/
def plainDecimal (s : String) : Bool :=
  match s.data with
  | [] => false
  | c :: rest =>
    if c = '-' then
      !rest.isEmpty && rest.all (fun d => d.isDigit) && rest.head? != some '0'
    else
      (c :: rest).all (fun d => d.isDigit) && (!(c == '0') || rest.isEmpty)

end TgAuth

deriving instance DecidableEq for Except

namespace TgAuth

/-! ### Lemmas: the sorted association list built by `btreeInsert` -/

theorem mem_btreeInsert {l : List (String × String)} {kv q : String × String}
    (h : q ∈ btreeInsert l kv) : q = kv ∨ q ∈ l := by
  induction l with
  | nil => simpa [btreeInsert] using h
  | cons p rest ih =>
    obtain ⟨k', v'⟩ := p
    obtain ⟨k, v⟩ := kv
    simp only [btreeInsert] at h
    split at h
    · rcases List.mem_cons.1 h with h | h
      · exact Or.inl h
      · exact Or.inr h
    · split at h
      · rcases List.mem_cons.1 h with h | h
        · exact Or.inl h
        · exact Or.inr (List.mem_cons_of_mem _ h)
      · rcases List.mem_cons.1 h with h | h
        · exact Or.inr (List.mem_cons.2 (Or.inl h))
        · rcases ih h with h | h
          · exact Or.inl h
          · exact Or.inr (List.mem_cons_of_mem _ h)

theorem lookup_cons_self (k v : String) (rest : List (String × String)) :
    List.lookup k ((k, v) :: rest) = some v := by
  simp [List.lookup_cons]

theorem lookup_cons_ne {k k1 : String} (h : k ≠ k1) (v1 : String)
    (rest : List (String × String)) :
    List.lookup k ((k1, v1) :: rest) = List.lookup k rest := by
  rw [List.lookup_cons, beq_eq_false_iff_ne.mpr h]

theorem lookup_btreeInsert (l : List (String × String)) (k v : String) (k' : String) :
    (btreeInsert l (k, v)).lookup k' = if k' = k then some v else l.lookup k' := by
  induction l with
  | nil =>
    by_cases h : k' = k
    · subst h
      simp [btreeInsert, lookup_cons_self]
    · simp only [btreeInsert]
      rw [lookup_cons_ne h, if_neg h]
  | cons p rest ih =>
    obtain ⟨k1, v1⟩ := p
    simp only [btreeInsert]
    split
    · by_cases h : k' = k
      · subst h
        simp [lookup_cons_self]
      · rw [lookup_cons_ne h, if_neg h]
    · split
      · next heq =>
        by_cases h : k' = k
        · subst h
          simp [lookup_cons_self]
        · rw [lookup_cons_ne h, if_neg h]
          subst heq
          rw [lookup_cons_ne h]
      · next hlt hne =>
        by_cases h : k' = k1
        · subst h
          have hkk : k' ≠ k := fun hc => hne hc.symm
          rw [lookup_cons_self, if_neg hkk, lookup_cons_self]
        · rw [lookup_cons_ne h, ih]
          by_cases h2 : k' = k
          · simp [h2]
          · simp [h2, lookup_cons_ne h]

theorem keysSorted_btreeInsert (kv : String × String) :
    ∀ l : List (String × String), KeysSorted l → KeysSorted (btreeInsert l kv) := by
  obtain ⟨k, v⟩ := kv
  intro l
  induction l with
  | nil =>
    intro _
    simp [btreeInsert, KeysSorted]
  | cons p rest ih =>
    intro hs
    obtain ⟨k1, v1⟩ := p
    rw [KeysSorted, List.pairwise_cons] at hs
    obtain ⟨h1, h2⟩ := hs
    simp only [btreeInsert]
    split
    · next hlt =>
      rw [KeysSorted, List.pairwise_cons]
      refine ⟨?_, List.Pairwise.cons h1 h2⟩
      intro q hq
      rcases List.mem_cons.1 hq with h | h
      · simpa [h] using hlt
      · exact lt_trans hlt (h1 q h)
    · split
      · next heq =>
        subst heq
        rw [KeysSorted, List.pairwise_cons]
        exact ⟨h1, h2⟩
      · next hlt hne =>
        have hgt : k1 < k := lt_of_le_of_ne (le_of_not_lt hlt) (fun hc => hne hc.symm)
        rw [KeysSorted, List.pairwise_cons]
        refine ⟨?_, ih h2⟩
        intro q hq
        rcases mem_btreeInsert hq with h | h
        · simpa [h] using hgt
        · exact h1 q h

theorem lastLookup_cons (p : String × String) (rest : List (String × String)) (k : String) :
    lastLookup (p :: rest) k =
      (lastLookup rest k).or (if p.1 = k then some p.2 else none) := by
  rw [lastLookup, List.reverse_cons, List.find?_append]
  cases h : rest.reverse.find? (fun q => q.1 == k) with
  | some q => simp [lastLookup, h, Option.or]
  | none =>
    by_cases hp : p.1 = k
    · simp [lastLookup, h, Option.or, List.find?, hp]
    · simp [lastLookup, h, Option.or, List.find?, beq_eq_false_iff_ne.mpr hp, hp]

theorem lookup_foldl_btreeInsert (pairs : List (String × String)) :
    ∀ (acc : List (String × String)) (k : String),
      (pairs.foldl btreeInsert acc).lookup k = (lastLookup pairs k).or (acc.lookup k) := by
  induction pairs with
  | nil =>
    intro acc k
    simp [lastLookup, Option.or]
  | cons p rest ih =>
    intro acc k
    obtain ⟨k1, v1⟩ := p
    rw [List.foldl_cons, ih, lastLookup_cons, lookup_btreeInsert]
    cases h : lastLookup rest k with
    | some w => simp [Option.or]
    | none =>
      by_cases hk : k = k1
      · subst hk
        simp [Option.or]
      · rw [if_neg hk, if_neg (fun hc : (k1, v1).1 = k => hk hc.symm)]
        rfl

theorem buildMap_sorted (fields : List (String × Value)) : KeysSorted (buildMap fields) := by
  rw [buildMap]
  have step : ∀ (pairs acc : List (String × String)),
      KeysSorted acc → KeysSorted (pairs.foldl btreeInsert acc) := by
    intro pairs
    induction pairs with
    | nil =>
      intro acc hacc
      simpa using hacc
    | cons p rest ih =>
      intro acc hacc
      rw [List.foldl_cons]
      exact ih _ (keysSorted_btreeInsert p _ hacc)
  exact step _ [] (by simp [KeysSorted])

theorem buildMap_lookup (fields : List (String × Value)) (k : String) :
    (buildMap fields).lookup k = lastLookup (collectScalars fields) k := by
  rw [buildMap, lookup_foldl_btreeInsert]
  cases lastLookup (collectScalars fields) k <;> simp [Option.or, List.lookup]

theorem lookup_mem : ∀ {l : List (String × String)} {a b : String},
    l.lookup a = some b → (a, b) ∈ l := by
  intro l
  induction l with
  | nil =>
    intro a b h
    simp [List.lookup] at h
  | cons p rest ih =>
    intro a b h
    obtain ⟨k1, v1⟩ := p
    by_cases hk : a = k1
    · subst hk
      rw [lookup_cons_self] at h
      cases h
      exact List.mem_cons_self _ _
    · rw [lookup_cons_ne hk] at h
      exact List.mem_cons_of_mem _ (ih h)

theorem lookup_eq_none_of_forall {l : List (String × String)} {a : String}
    (h : ∀ q ∈ l, a ≠ q.1) : l.lookup a = none := by
  induction l with
  | nil => rfl
  | cons p rest ih =>
    obtain ⟨k1, v1⟩ := p
    rw [lookup_cons_ne (h (k1, v1) (List.mem_cons_self _ _))]
    exact ih (fun q hq => h q (List.mem_cons_of_mem _ hq))

theorem keysSorted_ext : ∀ {l₁ l₂ : List (String × String)}, KeysSorted l₁ → KeysSorted l₂ →
    (∀ k, l₁.lookup k = l₂.lookup k) → l₁ = l₂ := by
  intro l₁
  induction l₁ with
  | nil =>
    intro l₂ _ _ hl
    cases l₂ with
    | nil => rfl
    | cons q t₂ =>
      exfalso
      obtain ⟨qk, qv⟩ := q
      have := hl qk
      rw [lookup_cons_self] at this
      simp [List.lookup] at this
  | cons p t₁ ih =>
    intro l₂ h1 h2 hl
    obtain ⟨pk, pv⟩ := p
    cases l₂ with
    | nil =>
      exfalso
      have := hl pk
      rw [lookup_cons_self] at this
      simp [List.lookup] at this
    | cons q t₂ =>
      obtain ⟨qk, qv⟩ := q
      rw [KeysSorted, List.pairwise_cons] at h1 h2
      obtain ⟨hp1, hp2⟩ := h1
      obtain ⟨hq1, hq2⟩ := h2
      have hkeq : pk = qk := by
        by_contra hne
        have e1 := hl pk
        rw [lookup_cons_self, lookup_cons_ne hne] at e1
        have m1 : (pk, pv) ∈ t₂ := lookup_mem e1.symm
        have lt1 : qk < pk := hq1 _ m1
        have e2 := hl qk
        rw [lookup_cons_self, lookup_cons_ne (fun hc => hne hc.symm)] at e2
        have m2 : (qk, qv) ∈ t₁ := lookup_mem e2
        have lt2 : pk < qk := hp1 _ m2
        exact absurd (lt_trans lt1 lt2) (lt_irrefl _)
      subst hkeq
      have hveq : pv = qv := by
        have := hl pk
        rw [lookup_cons_self, lookup_cons_self] at this
        exact Option.some.inj this
      subst hveq
      congr 1
      apply ih hp2 hq2
      intro k
      by_cases hk : k = pk
      · subst hk
        rw [lookup_eq_none_of_forall (fun q hq => ne_of_lt (hp1 q hq)),
            lookup_eq_none_of_forall (fun q hq => ne_of_lt (hq1 q hq))]
      · have := hl k
        rw [lookup_cons_ne hk, lookup_cons_ne hk] at this
        exact this

theorem lastLookup_eq_some_iff {pairs : List (String × String)}
    (hnd : (pairs.map Prod.fst).Nodup) (k v : String) :
    lastLookup pairs k = some v ↔ (k, v) ∈ pairs := by
  constructor
  · intro h
    rw [lastLookup] at h
    cases hf : pairs.reverse.find? (fun q => q.1 == k) with
    | none =>
      rw [hf] at h
      simp at h
    | some q =>
      rw [hf] at h
      have hq1 : q.1 = k := by simpa using List.find?_some hf
      have hqm : q ∈ pairs := List.mem_reverse.1 (List.mem_of_find?_eq_some hf)
      obtain ⟨q1, q2⟩ := q
      simp at h
      rw [show q1 = k from hq1] at hqm
      rw [h] at hqm
      exact hqm
  · intro hm
    have hsome : (pairs.reverse.find? (fun q : String × String => q.1 == k)).isSome = true :=
      List.find?_isSome.2 ⟨(k, v), List.mem_reverse.2 hm, by simp⟩
    cases hf : pairs.reverse.find? (fun q => q.1 == k) with
    | none =>
      rw [hf] at hsome
      simp at hsome
    | some q =>
      have hq1 : q.1 = k := by simpa using List.find?_some hf
      have hqm : q ∈ pairs := List.mem_reverse.1 (List.mem_of_find?_eq_some hf)
      have hqe : q = (k, v) := List.inj_on_of_nodup_map hnd hqm hm (by simpa using hq1)
      rw [lastLookup, hf, hqe]
      rfl

theorem collectScalars_keys_sublist (fields : List (String × Value)) :
    List.Sublist ((collectScalars fields).map Prod.fst) (fields.map Prod.fst) := by
  induction fields with
  | nil => simp [collectScalars]
  | cons p rest ih =>
    cases hs : scalarText p.2 with
    | none =>
      simp only [collectScalars, List.filterMap_cons, hs, Option.map_none', List.map_cons]
      exact List.Sublist.cons _ ih
    | some t =>
      simp only [collectScalars, List.filterMap_cons, hs, Option.map_some', List.map_cons]
      exact List.Sublist.cons₂ _ ih

/-! ### Lemmas: the decimal rendering is plain base-10 text -/

theorem digitChar_isDigit (d : Nat) : (digitChar d).isDigit = true := by
  rw [digitChar]
  repeat' split
  all_goals rfl

theorem digitChar_ne_dash (d : Nat) : digitChar d ≠ '-' := by
  rw [digitChar]
  repeat' split
  all_goals decide

theorem digitChar_ne_zero {d : Nat} (hd : d ≠ 0) : digitChar d ≠ '0' := by
  rw [digitChar]
  rw [if_neg hd]
  repeat' split
  all_goals decide

theorem natDigits_ne_nil (n : Nat) : natDigits n ≠ [] := by
  rw [natDigits]
  split
  · simp
  · simp

theorem natDigits_head_ne_zero : ∀ n, 1 ≤ n → (natDigits n).head? ≠ some 0 := by
  intro n
  induction n using Nat.strong_induction_on with
  | _ n ih =>
    intro hn
    rw [natDigits]
    split
    · next h =>
      simp
      omega
    · next h =>
      obtain ⟨a, t, he⟩ := List.exists_cons_of_ne_nil (natDigits_ne_nil (n / 10))
      rw [he, List.cons_append, List.head?_cons]
      have hq : 1 ≤ n / 10 := (Nat.one_le_div_iff (by omega)).2 (by omega)
      have hih := ih (n / 10) (Nat.div_lt_self (by omega) (by omega)) hq
      rw [he, List.head?_cons] at hih
      exact hih

theorem natDecimal_data (n : Nat) : (natDecimal n).data = (natDigits n).map digitChar := rfl

theorem natDecimal_all_digits (n : Nat) :
    ((natDecimal n).data.all (fun d => d.isDigit)) = true := by
  rw [natDecimal_data, List.all_eq_true]
  intro c hc
  obtain ⟨d, _, hd⟩ := List.mem_map.1 hc
  rw [← hd]
  exact digitChar_isDigit d

theorem natDecimal_ne_nil (n : Nat) : (natDecimal n).data ≠ [] := by
  rw [natDecimal_data]
  simp [natDigits_ne_nil n]

theorem natDecimal_head_ne_zero {n : Nat} (hn : 1 ≤ n) :
    (natDecimal n).data.head? ≠ some '0' := by
  rw [natDecimal_data, List.head?_map]
  obtain ⟨a, t, he⟩ := List.exists_cons_of_ne_nil (natDigits_ne_nil n)
  have ha : a ≠ 0 := by
    have h0 := natDigits_head_ne_zero n hn
    rw [he, List.head?_cons] at h0
    simpa using h0
  rw [he, List.head?_cons]
  simpa using digitChar_ne_zero ha

theorem plainDecimal_intRender (i : Int) : plainDecimal (intRender i) = true := by
  rw [intRender]
  split
  · next hneg =>
    have h1 : 1 ≤ i.natAbs := Int.natAbs_pos.2 (by omega)
    have hd : ("-" ++ natDecimal i.natAbs).data = '-' :: (natDecimal i.natAbs).data := by
      rw [String.data_append]
      rfl
    rw [plainDecimal, hd]
    have e1 : (natDecimal i.natAbs).data.isEmpty = false := by
      obtain ⟨a, t, he⟩ := List.exists_cons_of_ne_nil (natDecimal_ne_nil i.natAbs)
      rw [he]
      rfl
    have e2 := natDecimal_all_digits i.natAbs
    have e3 : ((natDecimal i.natAbs).data.head? != some '0') = true := by
      simpa [bne_iff_ne] using natDecimal_head_ne_zero h1
    simp [e1, e2, e3]
  · next hpos =>
    obtain ⟨a, t, he⟩ := List.exists_cons_of_ne_nil (natDigits_ne_nil i.natAbs)
    have hd : (natDecimal i.natAbs).data = digitChar a :: t.map digitChar := by
      rw [natDecimal_data, he, List.map_cons]
    rw [plainDecimal, hd]
    simp only [if_neg (digitChar_ne_dash a), Bool.and_eq_true]
    refine ⟨?_, ?_⟩
    · rw [← List.map_cons, ← he, ← natDecimal_data]
      exact natDecimal_all_digits i.natAbs
    · by_cases hz : i.natAbs = 0
      · have hdz : natDigits i.natAbs = [0] := by
          rw [hz, natDigits]
          simp
        rw [he] at hdz
        cases hdz
        simp
      · have ha : a ≠ 0 := by
          have h0 := natDigits_head_ne_zero i.natAbs (by omega)
          rw [he, List.head?_cons] at h0
          simpa using h0
        rw [beq_eq_false_iff_ne.mpr (digitChar_ne_zero ha)]
        rfl

/-! ### Lemmas: unfolding `validate` -/

theorem sha256_length (msg : List Nat) : (sha256 msg).length = 32 := by
  rw [sha256, stateBytes]
  simp [word32Bytes]

theorem validate_ok_extract {v : Value} {chash dcs : String}
    (hex : extract_data_check_string v = Except.ok (chash, dcs)) (secret : String) :
    validate (some v) secret =
      if hexEncode (hmacSha256 (sha256 (utf8Bytes secret)) (utf8Bytes dcs)) = chash
      then Except.ok () else Except.error ValidationError.InvalidHash := by
  simp only [validate, hex, hmacNewFromSlice]

/-! ### The claims -/

/-- C1: for every payload whose `hash` field survives canonicalization and
every secret, `validate` succeeds exactly when the `hash` value equals the
lowercase-hex HMAC-SHA256, keyed with SHA-256 of the secret, of the canonical
string; otherwise it returns `InvalidHash`. -/
theorem validate_success_iff_hmac_match (v : Value) (chash dcs : String)
    (hex : extract_data_check_string v = Except.ok (chash, dcs)) (secret : String) :
    (validate (some v) secret = Except.ok () ↔
      chash = hexEncode (hmacSha256 (sha256 (utf8Bytes secret)) (utf8Bytes dcs))) ∧
    (chash ≠ hexEncode (hmacSha256 (sha256 (utf8Bytes secret)) (utf8Bytes dcs)) →
      validate (some v) secret = Except.error ValidationError.InvalidHash) := by
  rw [validate_ok_extract hex]
  constructor
  · constructor
    · intro hok
      by_cases h : hexEncode (hmacSha256 (sha256 (utf8Bytes secret)) (utf8Bytes dcs)) = chash
      · exact h.symm
      · rw [if_neg h] at hok
        cases hok
    · intro hch
      rw [if_pos hch.symm]
  · intro hne
    rw [if_neg (fun hc => hne hc.symm)]

/-- Witness for C1 at the payload `{"hash": "ab"}` and secret `"token"`. -/
theorem validate_success_iff_hmac_match_witness :
    extract_data_check_string (Value.obj [("hash", Value.str "ab")]) =
      Except.ok ("ab", "") ∧
    ((validate (some (Value.obj [("hash", Value.str "ab")])) "token" = Except.ok () ↔
      "ab" = hexEncode (hmacSha256 (sha256 (utf8Bytes "token")) (utf8Bytes ""))) ∧
     ("ab" ≠ hexEncode (hmacSha256 (sha256 (utf8Bytes "token")) (utf8Bytes "")) →
      validate (some (Value.obj [("hash", Value.str "ab")])) "token" =
        Except.error ValidationError.InvalidHash)) :=
  ⟨by decide, validate_success_iff_hmac_match _ "ab" "" (by decide) "token"⟩

/-- C3: once canonicalization has succeeded, verification never returns
`InvalidInput` — for any secret, right or wrong, the outcome is success or
`InvalidHash` — and the derived key is always a 32-byte SHA-256 digest. -/
theorem wrong_secret_never_invalid_input (v : Value) (chash dcs : String)
    (hex : extract_data_check_string v = Except.ok (chash, dcs)) (secret : String) :
    validate (some v) secret ≠ Except.error ValidationError.InvalidInput ∧
    (sha256 (utf8Bytes secret)).length = 32 := by
  refine ⟨?_, sha256_length _⟩
  rw [validate_ok_extract hex]
  by_cases h : hexEncode (hmacSha256 (sha256 (utf8Bytes secret)) (utf8Bytes dcs)) = chash
  · rw [if_pos h]
    intro hc
    cases hc
  · rw [if_neg h]
    intro hc
    cases hc

/-- Witness for C3 at the payload `{"hash": "cd"}` and secret `"tok"`. -/
theorem wrong_secret_never_invalid_input_witness :
    extract_data_check_string (Value.obj [("hash", Value.str "cd")]) =
      Except.ok ("cd", "") ∧
    (validate (some (Value.obj [("hash", Value.str "cd")])) "tok" ≠
      Except.error ValidationError.InvalidInput ∧
     (sha256 (utf8Bytes "tok")).length = 32) :=
  ⟨by decide, wrong_secret_never_invalid_input _ "cd" "" (by decide) "tok"⟩

/-- C2: `validate` returns `InvalidInput` exactly when parsing failed, the
top-level value is not an object, or no `hash` entry survives the
Integer/Text filter; in all other cases the result is success or
`InvalidHash`. -/
theorem validate_invalid_input_characterization :
    (∀ (parsed : Option Value) (secret : String),
      validate parsed secret = Except.error ValidationError.InvalidInput ↔
        (parsed = none ∨ ∃ v, parsed = some v ∧
          extract_data_check_string v = Except.error ValidationError.InvalidInput)) ∧
    (∀ v : Value,
      extract_data_check_string v = Except.error ValidationError.InvalidInput ↔
        ((∀ fields, v ≠ Value.obj fields) ∨
         ∃ fields, v = Value.obj fields ∧ (buildMap fields).lookup "hash" = none)) ∧
    (∀ (parsed : Option Value) (secret : String),
      validate parsed secret = Except.ok () ∨
      validate parsed secret = Except.error ValidationError.InvalidInput ∨
      validate parsed secret = Except.error ValidationError.InvalidHash) := by
  refine ⟨?_, ?_, ?_⟩
  · intro parsed secret
    cases parsed with
    | none => simp [validate]
    | some v =>
      constructor
      · intro h
        refine Or.inr ⟨v, rfl, ?_⟩
        cases hex : extract_data_check_string v with
        | error e =>
          cases e with
          | InvalidInput => rfl
          | InvalidHash =>
            simp [validate, hex] at h
        | ok pr =>
          obtain ⟨chash, dcs⟩ := pr
          rw [validate_ok_extract hex] at h
          split at h <;> cases h
      · rintro (h | ⟨v', hv, hex⟩)
        · cases h
        · cases hv
          simp [validate, hex]
  · intro v
    cases v with
    | number n => exact iff_of_true rfl (Or.inl (fun fields h => Value.noConfusion h))
    | str s => exact iff_of_true rfl (Or.inl (fun fields h => Value.noConfusion h))
    | bool b => exact iff_of_true rfl (Or.inl (fun fields h => Value.noConfusion h))
    | null => exact iff_of_true rfl (Or.inl (fun fields h => Value.noConfusion h))
    | arr elems => exact iff_of_true rfl (Or.inl (fun fields h => Value.noConfusion h))
    | obj fields =>
      cases hl : (buildMap fields).lookup "hash" with
      | none =>
        refine iff_of_true ?_ (Or.inr ⟨fields, rfl, hl⟩)
        simp [extract_data_check_string, hl]
      | some hsh =>
        refine iff_of_false ?_ ?_
        · simp [extract_data_check_string, hl]
        · rintro (hno | ⟨fields', heq, hl'⟩)
          · exact hno fields rfl
          · injection heq with hf
            subst hf
            rw [hl] at hl'
            cases hl'
  · intro parsed secret
    cases hv : validate parsed secret with
    | ok u =>
      cases u
      exact Or.inl rfl
    | error e =>
      cases e
      · exact Or.inr (Or.inl rfl)
      · exact Or.inr (Or.inr rfl)

/-- C5: canonicalization depends only on the field set — two objects with the
same fields (unique keys) in different source orders canonicalize
identically. -/
theorem canonicalize_order_independent (f₁ f₂ : List (String × Value))
    (hperm : f₁.Perm f₂) (hnd : (f₁.map Prod.fst).Nodup) :
    extract_data_check_string (Value.obj f₁) = extract_data_check_string (Value.obj f₂) := by
  have hnd₂ : (f₂.map Prod.fst).Nodup := ((hperm.map Prod.fst).nodup_iff).1 hnd
  have hcs : (collectScalars f₁).Perm (collectScalars f₂) := hperm.filterMap _
  have hnd₁c : ((collectScalars f₁).map Prod.fst).Nodup :=
    (collectScalars_keys_sublist f₁).nodup hnd
  have hnd₂c : ((collectScalars f₂).map Prod.fst).Nodup :=
    (collectScalars_keys_sublist f₂).nodup hnd₂
  have hmap : buildMap f₁ = buildMap f₂ := by
    apply keysSorted_ext (buildMap_sorted f₁) (buildMap_sorted f₂)
    intro k
    rw [buildMap_lookup, buildMap_lookup]
    cases hc : lastLookup (collectScalars f₂) k with
    | some v =>
      exact (lastLookup_eq_some_iff hnd₁c k v).2
        (hcs.mem_iff.2 ((lastLookup_eq_some_iff hnd₂c k v).1 hc))
    | none =>
      cases hc1 : lastLookup (collectScalars f₁) k with
      | none => rfl
      | some v =>
        have hm2 := hcs.mem_iff.1 ((lastLookup_eq_some_iff hnd₁c k v).1 hc1)
        rw [(lastLookup_eq_some_iff hnd₂c k v).2 hm2] at hc
        cases hc
  simp only [extract_data_check_string, hmap]

/-- Witness for C5 at `{"b": "2", "a": "1"}` against `{"a": "1", "b": "2"}`. -/
theorem canonicalize_order_independent_witness :
    ([("b", Value.str "2"), ("a", Value.str "1")].Perm
      [("a", Value.str "1"), ("b", Value.str "2")]) ∧
    (([("b", Value.str "2"), ("a", Value.str "1")].map Prod.fst).Nodup) ∧
    extract_data_check_string (Value.obj [("b", Value.str "2"), ("a", Value.str "1")]) =
      extract_data_check_string (Value.obj [("a", Value.str "1"), ("b", Value.str "2")]) :=
  ⟨List.Perm.swap ("a", Value.str "1") ("b", Value.str "2") [], by decide,
    canonicalize_order_independent _ _
      (List.Perm.swap ("a", Value.str "1") ("b", Value.str "2") []) (by decide)⟩

/-- C7: fields whose values are arrays, nested objects, booleans, nulls or
floats are dropped without error — canonicalization behaves as if those
fields were absent. -/
theorem non_scalar_fields_ignored (fields : List (String × Value)) :
    extract_data_check_string (Value.obj fields) =
      extract_data_check_string
        (Value.obj (fields.filter (fun p => (scalarText p.2).isSome))) := by
  have hcs : collectScalars (fields.filter (fun p => (scalarText p.2).isSome)) =
      collectScalars fields := by
    induction fields with
    | nil => rfl
    | cons p rest ih =>
      cases hs : scalarText p.2 with
      | none =>
        simp only [collectScalars, List.filter_cons, hs, Option.isSome_none,
          Bool.false_eq_true, if_false, List.filterMap_cons, Option.map_none']
        exact ih
      | some t =>
        simp only [collectScalars, List.filter_cons, hs, Option.isSome_some,
          if_true, List.filterMap_cons, Option.map_some']
        rw [collectScalars] at ih
        rw [ih]
        rfl
  have hmap : buildMap (fields.filter (fun p => (scalarText p.2).isSome)) =
      buildMap fields := by
    rw [buildMap, buildMap, hcs]
  simp only [extract_data_check_string, hmap]

/-- C9: the canonical map has strictly ascending keys (so each key appears at
most once, also among the emitted lines), and a key's stored value is the one
of the last surviving occurrence in source order. -/
theorem canonical_sorted_unique_last_wins (fields : List (String × Value)) :
    KeysSorted (buildMap fields) ∧
    ((buildMap fields).map Prod.fst).Nodup ∧
    KeysSorted ((buildMap fields).filter (fun p => p.1 != "hash")) ∧
    (∀ k, (buildMap fields).lookup k = lastLookup (collectScalars fields) k) := by
  refine ⟨buildMap_sorted fields, ?_, ?_, buildMap_lookup fields⟩
  · have hp : List.Pairwise (fun p q : String × String => p.1 < q.1) (buildMap fields) :=
      buildMap_sorted fields
    have : List.Pairwise (fun a b : String => a ≠ b) ((buildMap fields).map Prod.fst) :=
      List.pairwise_map.2 (hp.imp (fun h => ne_of_lt h))
    exact this
  · exact List.Pairwise.sublist (List.filter_sublist _) (buildMap_sorted fields)

/-- C4, as stated, is false: the filter keeps a Number field only when
`as_i64` succeeds, so an Integer-kind value above i64::MAX — here
`9223372036854775808 = 2 ^ 63`, which `serde_json` stores as a u64 — is
silently dropped: `big` is absent from the canonical map and the payload
still canonicalizes without error, its canonical string empty. -/
theorem integer_field_above_i64_silently_dropped :
    (("big", Value.number (JsonNum.posInt 9223372036854775808)) ∈
      ([("big", Value.number (JsonNum.posInt 9223372036854775808)),
        ("hash", Value.str "h")] : List (String × Value))) ∧
    ((([("big", Value.number (JsonNum.posInt 9223372036854775808)),
        ("hash", Value.str "h")] : List (String × Value)).map Prod.fst).Nodup) ∧
    (buildMap [("big", Value.number (JsonNum.posInt 9223372036854775808)),
        ("hash", Value.str "h")]).lookup "big" = none ∧
    extract_data_check_string
      (Value.obj [("big", Value.number (JsonNum.posInt 9223372036854775808)),
        ("hash", Value.str "h")]) = Except.ok ("h", "") :=
  ⟨List.mem_cons_self _ _, by decide, by decide, by decide⟩

/-- C4 (amended): an Integer field of a payload (a mapping, so with unique
keys) whose value is representable as i64 survives canonicalization with its
value rendered as plain base-10 decimal text — digits only, no exponent, no
leading zero; Integer values outside the i64 range are silently dropped. -/
theorem integer_fields_kept_as_decimal (fields : List (String × Value)) (k : String)
    (n : JsonNum) (i : Int) (hnd : (fields.map Prod.fst).Nodup)
    (hmem : (k, Value.number n) ∈ fields) (hi : asI64 n = some i) :
    (buildMap fields).lookup k = some (intRender i) ∧
    plainDecimal (intRender i) = true := by
  refine ⟨?_, plainDecimal_intRender i⟩
  have hmemc : (k, intRender i) ∈ collectScalars fields :=
    List.mem_filterMap.2 ⟨(k, Value.number n), hmem, by simp [scalarText, hi]⟩
  have hndc : ((collectScalars fields).map Prod.fst).Nodup :=
    (collectScalars_keys_sublist fields).nodup hnd
  rw [buildMap_lookup]
  exact (lastLookup_eq_some_iff hndc k _).2 hmemc

/-- Witness for C4 at the payload `{"id": 7, "hash": "h"}`. -/
theorem integer_fields_kept_as_decimal_witness :
    (([("id", Value.number (JsonNum.posInt 7)),
       ("hash", Value.str "h")].map Prod.fst).Nodup) ∧
    (("id", Value.number (JsonNum.posInt 7)) ∈
      [("id", Value.number (JsonNum.posInt 7)), ("hash", Value.str "h")]) ∧
    asI64 (JsonNum.posInt 7) = some 7 ∧
    ((buildMap [("id", Value.number (JsonNum.posInt 7)),
        ("hash", Value.str "h")]).lookup "id" = some (intRender 7) ∧
     plainDecimal (intRender 7) = true) :=
  ⟨by decide, List.mem_cons_self _ _, by decide,
    integer_fields_kept_as_decimal _ "id" (JsonNum.posInt 7) 7
      (by decide) (List.mem_cons_self _ _) (by decide)⟩

/-- C6: the reserved key `hash` never appears among the `key=value` lines of
a produced canonical string — every emitted pair has a key other than
`hash`. -/
theorem hash_field_excluded_from_canonical (fields : List (String × Value))
    (chash dcs : String)
    (hex : extract_data_check_string (Value.obj fields) = Except.ok (chash, dcs)) :
    ∃ pairs : List (String × String),
      (∀ p ∈ pairs, p.1 ≠ "hash") ∧
      dcs = String.intercalate "\n" (pairs.map (fun p => p.1 ++ "=" ++ p.2)) := by
  refine ⟨(buildMap fields).filter (fun p => p.1 != "hash"), ?_, ?_⟩
  · intro p hp
    have hb := (List.mem_filter.1 hp).2
    simpa [bne_iff_ne] using hb
  · simp only [extract_data_check_string] at hex
    cases hl : (buildMap fields).lookup "hash" with
    | none =>
      rw [hl] at hex
      cases hex
    | some hsh =>
      rw [hl] at hex
      simp only at hex
      injection hex with h
      injection h with h1 h2
      exact h2.symm

/-- Witness for C6 at the payload `{"hash": "x"}`. -/
theorem hash_field_excluded_from_canonical_witness :
    extract_data_check_string (Value.obj [("hash", Value.str "x")]) =
      Except.ok ("x", "") ∧
    ∃ pairs : List (String × String),
      (∀ p ∈ pairs, p.1 ≠ "hash") ∧
      "" = String.intercalate "\n" (pairs.map (fun p => p.1 ++ "=" ++ p.2)) :=
  ⟨by decide,
    hash_field_excluded_from_canonical [("hash", Value.str "x")] "x" "" (by decide)⟩

/-- C10: a payload whose only surviving scalar entry is `hash` canonicalizes
to the empty string (no error), and verifies exactly when its digest equals
the lowercase-hex HMAC-SHA256 of the empty byte string under the derived
key. -/
theorem hash_only_payload_empty_message (fields : List (String × Value)) (hsh : String)
    (hmap : buildMap fields = [("hash", hsh)]) (secret : String) :
    extract_data_check_string (Value.obj fields) = Except.ok (hsh, "") ∧
    (validate (some (Value.obj fields)) secret = Except.ok () ↔
      hsh = hexEncode (hmacSha256 (sha256 (utf8Bytes secret)) [])) := by
  have hex : extract_data_check_string (Value.obj fields) = Except.ok (hsh, "") := by
    simp only [extract_data_check_string, hmap]
    rfl
  refine ⟨hex, ?_⟩
  rw [validate_ok_extract hex]
  rw [show utf8Bytes "" = ([] : List Nat) from rfl]
  by_cases h : hexEncode (hmacSha256 (sha256 (utf8Bytes secret)) []) = hsh
  · rw [if_pos h]
    exact iff_of_true rfl h.symm
  · rw [if_neg h]
    exact iff_of_false (fun hc => Except.noConfusion hc) (fun hc => h hc.symm)

/-- Witness for C10 at the payload `{"hash": "z"}` and secret `"s"`. -/
theorem hash_only_payload_empty_message_witness :
    buildMap [("hash", Value.str "z")] = [("hash", "z")] ∧
    (extract_data_check_string (Value.obj [("hash", Value.str "z")]) =
      Except.ok ("z", "") ∧
     (validate (some (Value.obj [("hash", Value.str "z")])) "s" = Except.ok () ↔
      "z" = hexEncode (hmacSha256 (sha256 (utf8Bytes "s")) []))) :=
  ⟨by decide, hash_only_payload_empty_message _ "z" (by decide) "s"⟩

end TgAuth
